import Mathlib

/-!
Verification of the emojiq core search-and-ranking engine
(`src-tauri/src/emoji_manager.rs` and `src-tauri/src/constants.rs`).

The Rust code is shallowly embedded: `HashMap`s become association lists or
bucket functions, `u32` arithmetic becomes `Nat` arithmetic taken modulo
`2 ^ 32` where the Rust code can wrap, byte lengths (`str::len`) become the
sum of the UTF-8 sizes of the characters, and fallible operations return
`Except`.  Rust's per-character `to_lowercase`/`replace` on strings are
embedded as maps over the character list of the string.
-/

namespace Emojiq

/-- `MIN_SEARCH_LENGTH` from `constants.rs`. -/
def MIN_SEARCH_LENGTH : Nat := 2

/-- `MAX_SEARCH_RESULTS` from `constants.rs`. -/
def MAX_SEARCH_RESULTS : Nat := 2000

/-- `MIN_KEYWORD_LENGTH` from `constants.rs`. -/
def MIN_KEYWORD_LENGTH : Nat := 2

/-- `MAX_PREFIX_LENGTH` from `constants.rs`. -/
def MAX_PREFIX_LENGTH : Nat := 12

/-- One catalog item, mirroring `struct EmojiData`. -/
structure EmojiData where
  emoji : String
  description : Option String
  category : Option String
  aliases : Option (List String)
  tags : Option (List String)
  unicode_version : Option String
  ios_version : Option String
deriving DecidableEq, Repr

/-- UTF-8 byte length of a string, the embedding of Rust `str::len`. -/
def utf8Len (s : String) : Nat := (s.data.map Char.utf8Size).sum

/-- Byte-length comparison used when sorting keyword lists
(`sort_by_key(|k| k.len())`). -/
def lenLE (a b : String) : Prop := utf8Len a ≤ utf8Len b

instance : DecidableRel lenLE := fun a b => Nat.decLe (utf8Len a) (utf8Len b)

instance : IsTotal String lenLE := ⟨fun a b => Nat.le_total (utf8Len a) (utf8Len b)⟩

instance : IsTrans String lenLE := ⟨fun _ _ _ hab hbc => Nat.le_trans hab hbc⟩

/-- Embedding of `s.to_lowercase().replace('_', " ")` applied to metadata
strings in `build_keywords` (per-character lowercasing followed by replacing
underscores with spaces). -/
def normalize (s : String) : String :=
  String.mk (s.data.map (fun c => if c.toLower = '_' then ' ' else c.toLower))

/-- Embedding of Rust `str::trim`: drop whitespace characters from both
ends of the string. -/
def trimStr (s : String) : String :=
  String.mk (((s.data.dropWhile Char.isWhitespace).reverse.dropWhile
    Char.isWhitespace).reverse)

/-- `strip_variation_selector`: remove every U+FE0F character. -/
def stripVariationSelector (s : String) : String :=
  String.mk (s.data.filter (fun c => c ≠ '\uFE0F'))

/-- The `seen`-set deduplication loop at the end of `build_keywords`:
keep each keyword not already in `seen`, inserting kept keywords into
`seen` as we go. -/
def dedupAgainst (seen : List String) : List String → List String
  | [] => []
  | k :: ks =>
    if k ∈ seen then dedupAgainst seen ks
    else k :: dedupAgainst (k :: seen) ks

/-- The keyword list `build_keywords` constructs for one catalog item:
the normalized description first, then the normalized aliases and tags,
stably sorted by byte length, with duplicates of the description or of an
earlier element dropped. -/
def buildKeywordList (e : EmojiData) : List String :=
  let description := normalize (e.description.getD "")
  let allKeywords := ((e.aliases.getD []) ++ (e.tags.getD [])).map normalize
  let sorted := allKeywords.insertionSort lenLE
  description :: dedupAgainst [description] sorted

/-- A concrete catalog item used to instantiate the universally quantified
theorems. -/
def sampleItem : EmojiData :=
  { emoji := "😀"
    description := some "Grinning_Face"
    category := some "Smileys & Emotion"
    aliases := some ["grinning", "ha_ha"]
    tags := some ["smile", "grinning"]
    unicode_version := some "6.1"
    ios_version := some "6.0" }

/-- The comparison `sort_by_key(|(_, &count)| Reverse(count))` uses in
`get_top_emojis_from_ranks`: descending by usage count, stable. -/
def rankGE (a b : String × Nat) : Prop := b.2 ≤ a.2

instance : DecidableRel rankGE := fun a b => Nat.decLe b.2 a.2

instance : IsTotal (String × Nat) rankGE := ⟨fun a b => Nat.le_total b.2 a.2⟩

instance : IsTrans (String × Nat) rankGE :=
  ⟨fun _ _ _ hab hbc => Nat.le_trans hbc hab⟩

/-- `get_top_emojis_from_ranks`: sort the ledger entries by count
descending (stably) and keep the ids of the first `limit` entries. -/
def getTopEmojisFromRanks (ranks : List (String × Nat)) (limit : Nat) :
    List String :=
  if ranks.isEmpty then []
  else ((ranks.insertionSort rankGE).take limit).map Prod.fst

/-- `order_emojis_by_usage`: with a nonempty ledger, first the top ids
that occur in the result list (in top order), then the result-list
elements that are not top ids, in their original order. -/
def orderEmojisByUsage (ranks : List (String × Nat)) (emojis : List String)
    (maxTopEmojis : Nat) : List String :=
  if ranks.isEmpty then emojis
  else
    (getTopEmojisFromRanks ranks maxTopEmojis).filter
        (fun t => emojis.contains t) ++
      emojis.filter (fun e => !(getTopEmojisFromRanks ranks maxTopEmojis).contains e)

/-- `HashMap::insert`: replace the value of an existing key, otherwise add
the binding. -/
def hmInsert (m : List (String × α)) (k : String) (v : α) : List (String × α) :=
  if m.any (fun p => p.1 == k) then
    m.map (fun p => if p.1 == k then (p.1, v) else p)
  else m ++ [(k, v)]

/-- `HashMap::get`: the value bound to a key, if any. -/
def hmGet (m : List (String × α)) (k : String) : Option α :=
  (m.find? (fun p => p.1 == k)).map Prod.snd

/-- `HashMap::contains_key`. -/
def hmContains (m : List (String × α)) (k : String) : Bool :=
  m.any (fun p => p.1 == k)

/-- The keyword table `build_keywords` produces: one binding per catalog
item, keyed by its glyph. -/
def buildKeywordsMap (catalog : List EmojiData) : List (String × List String) :=
  catalog.foldl (fun m e => hmInsert m e.emoji (buildKeywordList e)) []

/-- Helper for `splitWhitespace`: accumulate the current word (reversed)
while scanning. -/
def splitWsAux : List Char → List Char → List (List Char)
  | [], acc => if acc.isEmpty then [] else [acc.reverse]
  | c :: cs, acc =>
    if c.isWhitespace then
      if acc.isEmpty then splitWsAux cs []
      else acc.reverse :: splitWsAux cs []
    else splitWsAux cs (c :: acc)

/-- Embedding of Rust `split_whitespace`: maximal nonempty runs of
non-whitespace characters. -/
def splitWs (l : List Char) : List (List Char) := splitWsAux l []

/-- The word list `build_index` derives from one keyword: hyphens replaced
by spaces, then split on whitespace. -/
def wordsOf (keyword : String) : List String :=
  (splitWs (keyword.data.map (fun c => if c = '-' then ' ' else c))).map
    String.mk

/-- The keywords `index_keyword` indexes in full: those of byte length at
least `MIN_KEYWORD_LENGTH`. -/
def fullKeywordKeys (keywords : List String) : List String :=
  keywords.filter (fun k => decide (MIN_KEYWORD_LENGTH ≤ utf8Len k))

/-- The `(key, emoji index)` insertions the `index_keyword` closure performs
for one keyword list: for each sufficiently long keyword, the full keyword
and all of its character prefixes of length `MIN_KEYWORD_LENGTH` up to
`min(MAX_PREFIX_LENGTH, length)`. -/
def indexKeywordEvents (keywords : List String) (emojiIdx : Nat) :
    List (String × Nat) :=
  (fullKeywordKeys keywords).flatMap (fun keyword =>
    (keyword, emojiIdx) ::
      (List.range' MIN_KEYWORD_LENGTH
          (min MAX_PREFIX_LENGTH keyword.data.length + 1 - MIN_KEYWORD_LENGTH)).map
        (fun i => (String.mk (keyword.data.take i), emojiIdx)))

/-- All insertions `build_index` performs for one item: the keyword list
itself, then each multi-word keyword again word by word. -/
def itemIndexEvents (keywords : List String) (emojiIdx : Nat) :
    List (String × Nat) :=
  indexKeywordEvents keywords emojiIdx ++
    keywords.flatMap (fun keyword =>
      if 1 < (wordsOf keyword).length then
        indexKeywordEvents (wordsOf keyword) emojiIdx
      else [])

/-- All insertions `build_index` performs over the catalog, in program
order. -/
def indexEvents (catalog : List EmojiData) : List (String × Nat) :=
  catalog.enum.flatMap (fun p =>
    match hmGet (buildKeywordsMap catalog) p.2.emoji with
    | some kws => itemIndexEvents kws p.1
    | none => [])

/-- The content of one index bucket before the final sort/dedup pass: the
emoji indices pushed for that key, in insertion order. -/
def rawBucket (catalog : List EmojiData) (k : String) : List Nat :=
  ((indexEvents catalog).filter (fun p => p.1 == k)).map Prod.snd

/-- The content of one index bucket after the final pass of `build_index`:
sorted ascending (`sort_unstable`) with consecutive duplicates removed
(`dedup`). -/
def finalBucket (catalog : List EmojiData) (k : String) : List Nat :=
  ((rawBucket catalog k).insertionSort (· ≤ ·)).destutter (· ≠ ·)

/-- The finished inverted index: one binding per inserted key, each bucket
sorted and deduplicated. -/
def buildIndexMap (catalog : List EmojiData) : List (String × List Nat) :=
  ((indexEvents catalog).map Prod.fst).dedup.map
    (fun k => (k, finalBucket catalog k))

/-- The keys `build_index` inserts as full keywords (rather than only as
prefixes): per item, the sufficiently long keywords of its keyword list plus
the sufficiently long words of its multi-word keywords. -/
def fullKeys (catalog : List EmojiData) : List String :=
  catalog.enum.flatMap (fun p =>
    match hmGet (buildKeywordsMap catalog) p.2.emoji with
    | some kws =>
        fullKeywordKeys kws ++
          kws.flatMap (fun keyword =>
            if 1 < (wordsOf keyword).length then
              fullKeywordKeys (wordsOf keyword)
            else [])
    | none => [])

/-- The consolidated state container, mirroring `struct EmojiManagerData`. -/
structure EmojiManagerData where
  emojis : List EmojiData
  ranks : List (String × Nat)
  keywords : List (String × List String)
  index : List (String × List Nat)
  emojis_loaded : Bool
  ranks_loaded : Bool
  keywords_built : Bool
  index_built : Bool
deriving DecidableEq

/-- The state after a successful `initialize` on a given catalog and loaded
ledger: keywords and index are the ones built from the catalog and all
one-shot flags are set. -/
def builtData (catalog : List EmojiData) (ranks : List (String × Nat)) :
    EmojiManagerData :=
  { emojis := catalog
    ranks := ranks
    keywords := buildKeywordsMap catalog
    index := buildIndexMap catalog
    emojis_loaded := true
    ranks_loaded := true
    keywords_built := true
    index_built := true }

/-- `increment_usage`: `entry(..).or_insert(0)` followed by the unchecked
`u32` addition `*count += amount` (wrapping modulo `2 ^ 32` as in a release
build), `amount` defaulting to 1. -/
def incrementUsage (ranks : List (String × Nat)) (emoji : String)
    (amount : Option Nat) : List (String × Nat) :=
  if ranks.any (fun p => p.1 == emoji) then
    ranks.map (fun p =>
      if p.1 == emoji then (p.1, (p.2 + amount.getD 1) % 2 ^ 32) else p)
  else ranks ++ [(emoji, (0 + amount.getD 1) % 2 ^ 32)]

/-- `remove_emoji_rank`: `HashMap::remove` on the ledger. -/
def removeEmojiRank (ranks : List (String × Nat)) (emoji : String) :
    List (String × Nat) :=
  ranks.filter (fun p => !(p.1 == emoji))

/-- The ledger-mutating operations the facade exposes after
initialization. -/
inductive Op where
  | increment (emoji : String) (amount : Option Nat)
  | removeRank (emoji : String)
  | reset

/-- The effect of one mutating operation on the in-memory state: each of
them rewrites only the `ranks` field. -/
def applyOp (d : EmojiManagerData) : Op → EmojiManagerData
  | .increment e a => { d with ranks := incrementUsage d.ranks e a }
  | .removeRank e => { d with ranks := removeEmojiRank d.ranks e }
  | .reset => { d with ranks := [] }

/-- A sequence of mutating operations applied in order. -/
def applyOps (d : EmojiManagerData) (ops : List Op) : EmojiManagerData :=
  ops.foldl applyOp d

/-- Embedding of `str::to_lowercase` as used on the trimmed query
(per-character lowercasing). -/
def toLowerString (s : String) : String :=
  String.mk (s.data.map Char.toLower)

/-- The `emoji_list` computation of `get_emojis` for the lowercased
query: the full catalog capped at `MAX_SEARCH_RESULTS` when the query is
shorter than `MIN_SEARCH_LENGTH`, otherwise the index bucket mapped back
to glyphs (missing positions skipped) and capped at
`MAX_SEARCH_RESULTS`; empty when the query is not an index key. -/
def searchList (d : EmojiManagerData) (fw : String) : List String :=
  if utf8Len fw < MIN_SEARCH_LENGTH then
    (d.emojis.take MAX_SEARCH_RESULTS).map (fun e => e.emoji)
  else
    match hmGet d.index fw with
    | some idxs =>
        (idxs.take MAX_SEARCH_RESULTS).filterMap
          (fun i => (d.emojis[i]?).map (fun e => e.emoji))
    | none => []

/-- `get_emojis`: trim; return an exact glyph match (or its
variation-selector-stripped variant) immediately; otherwise fall back to
the full catalog (short query) or the inverted index, cap the list at
`MAX_SEARCH_RESULTS`, and re-rank by usage unless `max_top_emojis` is 0. -/
def getEmojis (d : EmojiManagerData) (filterWord : String)
    (maxTopEmojis : Nat) : List String :=
  let original := trimStr filterWord
  if hmContains d.keywords original then [original]
  else if stripVariationSelector original ≠ original ∧
      hmContains d.keywords (stripVariationSelector original) then
    [stripVariationSelector original]
  else if maxTopEmojis = 0 then searchList d (toLowerString original)
  else orderEmojisByUsage d.ranks (searchList d (toLowerString original))
    maxTopEmojis

/-- A second concrete catalog item. -/
def sampleItem2 : EmojiData :=
  { emoji := "📆"
    description := some "tear-off calendar"
    category := some "Objects"
    aliases := some ["calendar"]
    tags := some ["schedule"]
    unicode_version := some "6.0"
    ios_version := some "6.0" }

/-- A catalog item whose glyph carries the variation selector U+FE0F. -/
def vsItem : EmojiData :=
  { emoji := "a\uFE0F"
    description := none
    category := none
    aliases := none
    tags := none
    unicode_version := none
    ios_version := none }

/-- A catalog item whose glyph is the U+FE0F-stripped variant of
`vsItem`. -/
def plainItem : EmojiData :=
  { emoji := "a"
    description := none
    category := none
    aliases := none
    tags := none
    unicode_version := none
    ios_version := none }

/-- The three observable conditions of the ledger file at startup:
absent, present but unreadable (`fs::read_to_string` fails), or readable
with some content. -/
inductive RanksFile where
  | missing
  | readFailure
  | content (s : String)

/-- `load_ranks`: a missing file yields the empty map; a failing read of
an existing file propagates the I/O error through `?`; content that fails
to parse yields the empty map through `unwrap_or_default()`.  The JSON
parser (`serde_json`, an external library) is abstracted as the `parse`
argument. -/
def loadRanks (parse : String → Option (List (String × Nat))) :
    RanksFile → Except Unit (List (String × Nat))
  | .missing => .ok []
  | .readFailure => .error ()
  | .content s => .ok ((parse s).getD [])

/-- `initialize`: `load_emojis()?` then `load_ranks()?` then the two
builders (whose only failure mode, lock poisoning, is not modeled); on
full success every structure is built. -/
def initializeManager (emojiLoad : Except Unit (List EmojiData))
    (parse : String → Option (List (String × Nat))) (f : RanksFile) :
    Except Unit EmojiManagerData :=
  match emojiLoad with
  | .error e => .error e
  | .ok catalog =>
    match loadRanks parse f with
    | .error e => .error e
    | .ok ranks => .ok (builtData catalog ranks)

/-- The persistent side of the manager: the in-memory state, the durable
ledger document, and the debounce machinery (`pending_writes`,
`last_write_time`, `write_worker_active`). -/
structure PersistState where
  data : EmojiManagerData
  ledgerFile : Option String
  pendingWrites : Bool
  lastWriteTime : Nat
  writeWorkerActive : Bool
deriving DecidableEq

/-- Model of `serde_json::to_string` on the ledger map. -/
def serializeRanks (ranks : List (String × Nat)) : String :=
  "\x7b" ++ String.intercalate ","
    (ranks.map (fun p => "\"" ++ p.1 ++ "\":" ++ toString p.2)) ++ "\x7d"

/-- `reset_ranks`: clear the in-memory ledger, then synchronously
serialize the empty map and write it to the ledger file (`fs::write`, the
fallible step, modeled by `writeOk`); the debounce machinery is neither
consulted nor modified. -/
def resetRanks (writeOk : Bool) (st : PersistState) :
    Except Unit PersistState :=
  let cleared := { st with data := { st.data with ranks := [] } }
  if writeOk then
    Except.ok { cleared with ledgerFile := some (serializeRanks []) }
  else Except.error ()

/-- A concrete persistent state with a nonempty ledger, a stale durable
document and the debounce machinery mid-flight. -/
def samplePersistState : PersistState :=
  { data := builtData [sampleItem] [("😀", 3)]
    ledgerFile := some "stale"
    pendingWrites := true
    lastWriteTime := 7
    writeWorkerActive := true }

/-- The state `reset_ranks` produces from `samplePersistState`. -/
def resetSample : PersistState :=
  { samplePersistState with
      data := { samplePersistState.data with ranks := [] }
      ledgerFile := some (serializeRanks []) }

/-- The write-back machinery state: the dirty flag, the last-mutation
timestamp, the `write_worker_active` compare-and-swap gate, and the number
of live worker threads. -/
structure WbState where
  pendingWrites : Bool
  lastWriteTime : Nat
  writeWorkerActive : Bool
  workers : Nat
deriving DecidableEq

/-- Labels of the write-back transitions: a ledger mutation
(`schedule_write` at timestamp `t`), the worker clearing the dirty flag
after a successful write, the worker releasing the gate and exiting, and
the worker sleeping through the quiet period. -/
inductive WbLabel where
  | mutation (t : Nat)
  | workerClear
  | workerExit
  | workerSleep

/-- Transitions of `schedule_write` and its worker loop.  A mutation sets
the dirty flag and timestamp and spawns a worker only when the
compare-and-swap on `write_worker_active` succeeds (flag was `false`);
otherwise it changes nothing else.  A live worker may clear the dirty
flag (successful write), release the gate and exit (after a write, a
failed write, or seeing a clean flag), or sleep (no state change). -/
inductive WbStep : WbState → WbLabel → WbState → Prop where
  | mutationSpawn (s : WbState) (t : Nat) (h : s.writeWorkerActive = false) :
      WbStep s (.mutation t)
        { pendingWrites := true, lastWriteTime := t,
          writeWorkerActive := true, workers := s.workers + 1 }
  | mutationNoSpawn (s : WbState) (t : Nat) (h : s.writeWorkerActive = true) :
      WbStep s (.mutation t) { s with pendingWrites := true, lastWriteTime := t }
  | workerClear (s : WbState) (h : 0 < s.workers) :
      WbStep s .workerClear { s with pendingWrites := false }
  | workerExit (s : WbState) (h : 0 < s.workers) :
      WbStep s .workerExit
        { s with writeWorkerActive := false, workers := s.workers - 1 }
  | workerSleep (s : WbState) (h : 0 < s.workers) :
      WbStep s .workerSleep s

/-- States reachable from the initial idle state (clean, no worker). -/
inductive WbReachable : WbState → Prop where
  | init : WbReachable
      { pendingWrites := false, lastWriteTime := 0,
        writeWorkerActive := false, workers := 0 }
  | step {s : WbState} {l : WbLabel} {t : WbState} :
      WbReachable s → WbStep s l t → WbReachable t

/-- The state after the first mutation spawns the single worker. -/
def wbAfterSpawn : WbState :=
  { pendingWrites := true, lastWriteTime := 5,
    writeWorkerActive := true, workers := 1 }

theorem dedupAgainst_sublist (l : List String) :
    ∀ seen, (dedupAgainst seen l).Sublist l := by
  induction l with
  | nil => intro seen; simp [dedupAgainst]
  | cons k ks ih =>
    intro seen
    by_cases hk : k ∈ seen
    · simp only [dedupAgainst, if_pos hk]
      exact (ih seen).trans (List.sublist_cons_self k ks)
    · simp only [dedupAgainst, if_neg hk]
      exact (ih (k :: seen)).cons₂ k

theorem dedupAgainst_nodup (l : List String) :
    ∀ seen, (dedupAgainst seen l).Nodup ∧
      ∀ x ∈ dedupAgainst seen l, x ∉ seen := by
  induction l with
  | nil => intro seen; simp [dedupAgainst]
  | cons k ks ih =>
    intro seen
    by_cases hk : k ∈ seen
    · simpa only [dedupAgainst, if_pos hk] using ih seen
    · simp only [dedupAgainst, if_neg hk]
      obtain ⟨hnd, hout⟩ := ih (k :: seen)
      refine ⟨List.nodup_cons.mpr ⟨fun hmem => ?_, hnd⟩, ?_⟩
      · exact (hout k hmem) (List.mem_cons_self k seen)
      · intro x hx
        rcases List.mem_cons.mp hx with rfl | hx
        · exact hk
        · exact fun hxs => (hout x hx) (List.mem_cons_of_mem k hxs)

theorem mem_dedupAgainst_of_mem (l : List String) :
    ∀ seen x, x ∈ l → x ∈ seen ∨ x ∈ dedupAgainst seen l := by
  induction l with
  | nil => intro seen x hx; cases hx
  | cons k ks ih =>
    intro seen x hx
    by_cases hk : k ∈ seen
    · simp only [dedupAgainst, if_pos hk]
      rcases List.mem_cons.mp hx with rfl | hx
      · exact Or.inl hk
      · exact ih seen x hx
    · simp only [dedupAgainst, if_neg hk]
      rcases List.mem_cons.mp hx with rfl | hx
      · exact Or.inr (List.mem_cons_self _ _)
      · rcases ih (k :: seen) x hx with hs | hd
        · rcases List.mem_cons.mp hs with rfl | hs
          · exact Or.inr (List.mem_cons_self _ _)
          · exact Or.inl hs
        · exact Or.inr (List.mem_cons_of_mem _ hd)

/-- C5: for every catalog item, the keyword list built by `build_keywords`
has the item's lowercased, underscore-normalized description (empty when
absent) as its first element; its remaining elements come from the
normalized aliases-then-tags list, are sorted by length ascending in the
stable-sort order of that list, contain every normalized alias/tag except
duplicates of the description or of an earlier element, and are free of
duplicates (also never repeating the description). -/
theorem buildKeywordList_spec (e : EmojiData) :
    (buildKeywordList e).head? = some (normalize (e.description.getD "")) ∧
    List.Pairwise (fun a b => utf8Len a ≤ utf8Len b) (buildKeywordList e).tail ∧
    (buildKeywordList e).Nodup ∧
    (∀ k ∈ (buildKeywordList e).tail,
      k ∈ ((e.aliases.getD []) ++ (e.tags.getD [])).map normalize) ∧
    (∀ k ∈ ((e.aliases.getD []) ++ (e.tags.getD [])).map normalize,
      k = normalize (e.description.getD "") ∨ k ∈ (buildKeywordList e).tail) ∧
    (buildKeywordList e).tail.Sublist
      ((((e.aliases.getD []) ++ (e.tags.getD [])).map normalize).insertionSort
        lenLE) := by
  simp only [buildKeywordList]
  set d := normalize (e.description.getD "") with hd
  set allKeywords := ((e.aliases.getD []) ++ (e.tags.getD [])).map normalize
    with hall
  set sorted := allKeywords.insertionSort lenLE with hsorted
  have hsub : (dedupAgainst [d] sorted).Sublist sorted :=
    dedupAgainst_sublist sorted [d]
  have hpw : List.Pairwise lenLE sorted :=
    List.sorted_insertionSort lenLE allKeywords
  refine ⟨rfl, ?_, ?_, ?_, ?_, ?_⟩
  · exact (hpw.sublist hsub).imp fun hab => hab
  · refine List.nodup_cons.mpr ⟨fun hmem => ?_, (dedupAgainst_nodup sorted [d]).1⟩
    exact ((dedupAgainst_nodup sorted [d]).2 d hmem) (List.mem_cons_self d [])
  · intro k hk
    exact (List.mem_insertionSort lenLE).mp (hsub.mem hk)
  · intro k hk
    rcases mem_dedupAgainst_of_mem sorted [d] k
      ((List.mem_insertionSort lenLE).mpr hk) with hs | hrest
    · exact Or.inl (List.mem_singleton.mp hs)
    · exact Or.inr hrest
  · exact hsub

/-- Witness for C5: the keyword-list structure theorem instantiated at a
concrete catalog item. -/
theorem buildKeywordList_spec_witness :
    (buildKeywordList sampleItem).head? =
      some (normalize (sampleItem.description.getD "")) ∧
    (buildKeywordList sampleItem).Nodup ∧
    "smile" ∈ (buildKeywordList sampleItem).tail :=
  ⟨(buildKeywordList_spec sampleItem).1,
   (buildKeywordList_spec sampleItem).2.2.1,
   ((buildKeywordList_spec sampleItem).2.2.2.2.1 "smile" (by decide)).resolve_left
     (by decide)⟩

/-- C4: `order_emojis_by_usage(items, top_n)` emits the ids of the `top_n`
highest-count ledger entries that occur in `items` (in descending-count
order, the count sequence of the sorted ledger being non-increasing and
every taken entry's count at least every dropped entry's count), followed
by the remaining elements of `items` in their original relative order with
top ids excluded; on the concrete ledger `{A:5, B:3}`, input `[C, A, B]`
and `top_n = 10` the output is `[A, B, C]`. -/
theorem orderEmojisByUsage_spec (ranks : List (String × Nat))
    (emojis : List String) (n : Nat) (hn : 0 < n) :
    orderEmojisByUsage ranks emojis n =
      (((ranks.insertionSort rankGE).take n).map Prod.fst).filter
          (fun t => emojis.contains t) ++
        emojis.filter
          (fun e => !(((ranks.insertionSort rankGE).take n).map Prod.fst).contains e) ∧
    List.Pairwise (fun a b : Nat => b ≤ a)
      ((ranks.insertionSort rankGE).map Prod.snd) ∧
    (∀ p ∈ (ranks.insertionSort rankGE).take n,
      ∀ q ∈ (ranks.insertionSort rankGE).drop n, q.2 ≤ p.2) ∧
    (ranks.insertionSort rankGE).Perm ranks ∧
    orderEmojisByUsage [("A", 5), ("B", 3)] ["C", "A", "B"] 10 =
      ["A", "B", "C"] := by
  have hpw : List.Pairwise rankGE (ranks.insertionSort rankGE) :=
    List.sorted_insertionSort rankGE ranks
  refine ⟨?_, ?_, ?_, List.perm_insertionSort rankGE ranks, by decide⟩
  · by_cases hr : ranks.isEmpty
    · rcases List.isEmpty_iff.mp hr with rfl
      simp [orderEmojisByUsage, List.filter_eq_self]
    · simp [orderEmojisByUsage, getTopEmojisFromRanks, hr]
  · exact List.pairwise_map.mpr (hpw.imp fun hab => hab)
  · have hsplit : List.Pairwise rankGE
        ((ranks.insertionSort rankGE).take n ++ (ranks.insertionSort rankGE).drop n) := by
      rw [List.take_append_drop]
      exact hpw
    intro p hp q hq
    exact (List.pairwise_append.mp hsplit).2.2 p hp q hq

/-- Witness for C4: the ranker theorem instantiated at the ledger
`{A:5, B:3}`, input `[C, A, B]` and `top_n = 10`. -/
theorem orderEmojisByUsage_spec_witness :
    0 < 10 ∧
    orderEmojisByUsage [("A", 5), ("B", 3)] ["C", "A", "B"] 10 =
      ["A", "B", "C"] :=
  ⟨by decide,
   (orderEmojisByUsage_spec [("A", 5), ("B", 3)] ["C", "A", "B"] 10
     (by decide)).2.2.2.2⟩

theorem mem_destutter'_ne {α : Type} [DecidableEq α] :
    ∀ (l : List α) (b x : α), x ∈ b :: l → x ∈ l.destutter' (· ≠ ·) b
  | [], b, x, h => by
    simp only [List.destutter'_nil]
    simpa using h
  | c :: cs, b, x, h => by
    by_cases hbc : b ≠ c
    · rw [List.destutter'_cons_pos _ hbc]
      rcases List.mem_cons.mp h with rfl | hx
      · exact List.mem_cons_self _ _
      · exact List.mem_cons_of_mem _ (mem_destutter'_ne cs c x hx)
    · rw [List.destutter'_cons_neg _ hbc]
      have hbc' : b = c := not_not.mp hbc
      subst hbc'
      apply mem_destutter'_ne cs b x
      rcases List.mem_cons.mp h with rfl | hx
      · exact List.mem_cons_self _ _
      · exact hx

theorem mem_destutter_ne {α : Type} [DecidableEq α] (l : List α) (x : α)
    (h : x ∈ l) : x ∈ l.destutter (· ≠ ·) := by
  cases l with
  | nil => cases h
  | cons b t =>
    rw [List.destutter_cons']
    exact mem_destutter'_ne t b x h

theorem mem_rawBucket_iff (catalog : List EmojiData) (k : String) (x : Nat) :
    x ∈ rawBucket catalog k ↔ (k, x) ∈ indexEvents catalog := by
  simp only [rawBucket, List.mem_map, List.mem_filter]
  constructor
  · rintro ⟨⟨a, b⟩, ⟨hp, hbeq⟩, rfl⟩
    have ha : a = k := by simpa using hbeq
    subst ha
    exact hp
  · intro h
    exact ⟨(k, x), ⟨h, by simp⟩, rfl⟩

theorem mem_finalBucket_iff (catalog : List EmojiData) (k : String) (x : Nat) :
    x ∈ finalBucket catalog k ↔ x ∈ rawBucket catalog k := by
  constructor
  · intro hx
    exact (List.mem_insertionSort (· ≤ ·)).mp
      ((List.destutter_sublist _ _).mem hx)
  · intro hx
    exact mem_destutter_ne _ x ((List.mem_insertionSort (· ≤ ·)).mpr hx)

theorem indexKeywordEvents_prefix_closed (kws : List String) (idx : Nat)
    (k : String) (x i : Nat) (hev : (k, x) ∈ indexKeywordEvents kws idx)
    (h2 : MIN_KEYWORD_LENGTH ≤ i) (h12 : i ≤ MAX_PREFIX_LENGTH)
    (hlen : i ≤ k.data.length) :
    (String.mk (k.data.take i), x) ∈ indexKeywordEvents kws idx := by
  simp only [MIN_KEYWORD_LENGTH, MAX_PREFIX_LENGTH] at h2 h12
  simp only [indexKeywordEvents, List.mem_flatMap, MIN_KEYWORD_LENGTH,
    MAX_PREFIX_LENGTH] at hev ⊢
  obtain ⟨kw, hkw, hin⟩ := hev
  refine ⟨kw, hkw, ?_⟩
  rcases List.mem_cons.mp hin with heq | hpre
  · obtain ⟨rfl, rfl⟩ := Prod.mk.injEq .. ▸ heq
    apply List.mem_cons_of_mem
    refine List.mem_map.mpr ⟨i, ?_, rfl⟩
    rw [List.mem_range']
    refine ⟨i - 2, ?_, by omega⟩
    have := hlen
    omega
  · obtain ⟨j, hj, heq⟩ := List.mem_map.mp hpre
    rw [List.mem_range'] at hj
    obtain ⟨t, ht, rfl⟩ := hj
    obtain ⟨hk, rfl⟩ : String.mk (kw.data.take (2 + 1 * t)) = k ∧ idx = x :=
      Prod.mk.injEq .. ▸ heq
    have hdata : k.data = kw.data.take (2 + 1 * t) := by rw [← hk]
    have hklen : k.data.length = min (2 + 1 * t) kw.data.length := by
      rw [hdata, List.length_take]
    have hij : i ≤ 2 + 1 * t ∧ i ≤ kw.data.length := by
      constructor <;> omega
    have htake : k.data.take i = kw.data.take i := by
      rw [hdata, List.take_take, Nat.min_def, if_pos hij.1]
    rw [htake]
    apply List.mem_cons_of_mem
    refine List.mem_map.mpr ⟨i, ?_, rfl⟩
    rw [List.mem_range']
    exact ⟨i - 2, by omega, by omega⟩

theorem itemIndexEvents_prefix_closed (kws : List String) (idx : Nat)
    (k : String) (x i : Nat) (hev : (k, x) ∈ itemIndexEvents kws idx)
    (h2 : MIN_KEYWORD_LENGTH ≤ i) (h12 : i ≤ MAX_PREFIX_LENGTH)
    (hlen : i ≤ k.data.length) :
    (String.mk (k.data.take i), x) ∈ itemIndexEvents kws idx := by
  simp only [itemIndexEvents, List.mem_append] at hev ⊢
  rcases hev with hev | hev
  · exact Or.inl (indexKeywordEvents_prefix_closed kws idx k x i hev h2 h12 hlen)
  · right
    simp only [List.mem_flatMap] at hev ⊢
    obtain ⟨kw, hkw, hin⟩ := hev
    refine ⟨kw, hkw, ?_⟩
    by_cases hw : 1 < (wordsOf kw).length
    · rw [if_pos hw] at hin ⊢
      exact indexKeywordEvents_prefix_closed (wordsOf kw) idx k x i hin h2 h12 hlen
    · rw [if_neg hw] at hin
      cases hin

theorem indexEvents_prefix_closed (catalog : List EmojiData) (k : String)
    (x i : Nat) (hev : (k, x) ∈ indexEvents catalog)
    (h2 : MIN_KEYWORD_LENGTH ≤ i) (h12 : i ≤ MAX_PREFIX_LENGTH)
    (hlen : i ≤ k.data.length) :
    (String.mk (k.data.take i), x) ∈ indexEvents catalog := by
  simp only [indexEvents, List.mem_flatMap] at hev ⊢
  obtain ⟨p, hp, hin⟩ := hev
  refine ⟨p, hp, ?_⟩
  cases hg : hmGet (buildKeywordsMap catalog) p.2.emoji with
  | none => rw [hg] at hin; exact absurd hin (List.not_mem_nil _)
  | some kws =>
    rw [hg] at hin
    exact itemIndexEvents_prefix_closed kws p.1 k x i hin h2 h12 hlen

theorem mem_indexKeywordEvents_of_full (kws : List String) (idx : Nat)
    (k : String) (hk : k ∈ fullKeywordKeys kws) :
    (k, idx) ∈ indexKeywordEvents kws idx := by
  simp only [indexKeywordEvents, List.mem_flatMap]
  exact ⟨k, hk, List.mem_cons_self _ _⟩

theorem exists_event_of_mem_fullKeys (catalog : List EmojiData) (k : String)
    (hk : k ∈ fullKeys catalog) : ∃ x, (k, x) ∈ indexEvents catalog := by
  simp only [fullKeys, List.mem_flatMap] at hk
  obtain ⟨p, hp, hin⟩ := hk
  refine ⟨p.1, ?_⟩
  simp only [indexEvents, List.mem_flatMap]
  refine ⟨p, hp, ?_⟩
  cases hg : hmGet (buildKeywordsMap catalog) p.2.emoji with
  | none => rw [hg] at hin; exact absurd hin (List.not_mem_nil _)
  | some kws =>
    rw [hg] at hin
    simp only [itemIndexEvents, List.mem_append]
    rcases List.mem_append.mp hin with hfull | hword
    · exact Or.inl (mem_indexKeywordEvents_of_full kws p.1 k hfull)
    · right
      simp only [List.mem_flatMap] at hword ⊢
      obtain ⟨kw, hkw, hin'⟩ := hword
      refine ⟨kw, hkw, ?_⟩
      by_cases hw : 1 < (wordsOf kw).length
      · rw [if_pos hw] at hin' ⊢
        exact mem_indexKeywordEvents_of_full (wordsOf kw) p.1 k hin'
      · rw [if_neg hw] at hin'
        cases hin'

theorem hmGet_keyMap {β : Type} (v : String → β) (k : String) :
    ∀ L : List String, k ∈ L →
      hmGet (L.map (fun a => (a, v a))) k = some (v k) := by
  intro L
  induction L with
  | nil => intro h; cases h
  | cons a L ih =>
    intro h
    by_cases hak : a = k
    · subst hak
      simp [hmGet, List.find?]
    · have hk : k ∈ L := by
        rcases List.mem_cons.mp h with rfl | hk
        · exact absurd rfl hak
        · exact hk
      have hbeq : (a == k) = false := beq_eq_false_iff_ne.mpr hak
      simpa [hmGet, List.find?, hbeq] using ih hk

theorem hmGet_buildIndexMap (catalog : List EmojiData) (k : String)
    (hk : ∃ x, (k, x) ∈ indexEvents catalog) :
    hmGet (buildIndexMap catalog) k = some (finalBucket catalog k) := by
  obtain ⟨x, hx⟩ := hk
  apply hmGet_keyMap
  rw [List.mem_dedup]
  exact List.mem_map.mpr ⟨(k, x), hx, rfl⟩

/-- C3: every keyword that `build_index` inserts as a full key (including
the per-word keys of multi-word keywords) has, for every character prefix
of length between `MIN_KEYWORD_LENGTH` and
`min(MAX_PREFIX_LENGTH, len)`, that prefix as a key of the finished
inverted index, with a bucket containing every item position of the full
keyword's bucket. -/
theorem buildIndex_prefix_complete (catalog : List EmojiData) (k : String)
    (i : Nat) (hk : k ∈ fullKeys catalog) (h2 : MIN_KEYWORD_LENGTH ≤ i)
    (hcap : i ≤ min MAX_PREFIX_LENGTH k.data.length) :
    ∃ bk bp, hmGet (buildIndexMap catalog) k = some bk ∧
      hmGet (buildIndexMap catalog) (String.mk (k.data.take i)) = some bp ∧
      ∀ x ∈ bk, x ∈ bp := by
  have h12 : i ≤ MAX_PREFIX_LENGTH := le_trans hcap (Nat.min_le_left _ _)
  have hlen : i ≤ k.data.length := le_trans hcap (Nat.min_le_right _ _)
  obtain ⟨x0, hx0⟩ := exists_event_of_mem_fullKeys catalog k hk
  have hpev : (String.mk (k.data.take i), x0) ∈ indexEvents catalog :=
    indexEvents_prefix_closed catalog k x0 i hx0 h2 h12 hlen
  refine ⟨finalBucket catalog k, finalBucket catalog (String.mk (k.data.take i)),
    hmGet_buildIndexMap catalog k ⟨x0, hx0⟩,
    hmGet_buildIndexMap catalog _ ⟨x0, hpev⟩, ?_⟩
  intro x hx
  have hev : (k, x) ∈ indexEvents catalog :=
    (mem_rawBucket_iff catalog k x).mp ((mem_finalBucket_iff catalog k x).mp hx)
  exact (mem_finalBucket_iff catalog _ x).mpr
    ((mem_rawBucket_iff catalog _ x).mpr
      (indexEvents_prefix_closed catalog k x i hev h2 h12 hlen))

/-- Witness for C3: the prefix-completeness theorem instantiated at the
one-item catalog `[sampleItem]`, full keyword `grinning` and prefix
length 4. -/
theorem buildIndex_prefix_complete_witness :
    "grinning" ∈ fullKeys [sampleItem] ∧
    ∃ bk bp, hmGet (buildIndexMap [sampleItem]) "grinning" = some bk ∧
      hmGet (buildIndexMap [sampleItem])
        (String.mk ("grinning".data.take 4)) = some bp ∧
      ∀ x ∈ bk, x ∈ bp :=
  ⟨by decide,
   buildIndex_prefix_complete [sampleItem] "grinning" 4 (by decide) (by decide)
     (by decide)⟩

theorem applyOp_index (d : EmojiManagerData) (op : Op) :
    (applyOp d op).index = d.index := by
  cases op <;> rfl

theorem applyOps_index : ∀ (ops : List Op) (d : EmojiManagerData),
    (applyOps d ops).index = d.index
  | [], _ => rfl
  | op :: ops, d => by
    show (applyOps (applyOp d op) ops).index = d.index
    rw [applyOps_index ops (applyOp d op), applyOp_index]

theorem pairwise_lt_of_sorted_chain_ne :
    ∀ l : List Nat, List.Pairwise (· ≤ ·) l → List.Chain' (· ≠ ·) l →
      List.Pairwise (· < ·) l
  | [], _, _ => List.Pairwise.nil
  | [_], _, _ => by simp
  | a :: c :: t, hle, hne => by
    obtain ⟨ha, ht⟩ := List.pairwise_cons.mp hle
    obtain ⟨hac, hnet⟩ := List.chain'_cons.mp hne
    have hpt := pairwise_lt_of_sorted_chain_ne (c :: t) ht hnet
    refine List.pairwise_cons.mpr ⟨?_, hpt⟩
    intro b hb
    rcases List.mem_cons.mp hb with rfl | hb
    · exact lt_of_le_of_ne (ha b (List.mem_cons_self _ _)) hac
    · have hcb : c ≤ b := (List.pairwise_cons.mp ht).1 b hb
      exact lt_of_lt_of_le
        (lt_of_le_of_ne (ha c (List.mem_cons_self _ _)) hac) hcb

theorem finalBucket_sorted (catalog : List EmojiData) (k : String) :
    List.Pairwise (· < ·) (finalBucket catalog k) := by
  have hs : List.Pairwise (· ≤ ·)
      ((rawBucket catalog k).insertionSort (· ≤ ·)) :=
    List.sorted_insertionSort (· ≤ ·) (rawBucket catalog k)
  have hd : (finalBucket catalog k).Sublist
      ((rawBucket catalog k).insertionSort (· ≤ ·)) :=
    List.destutter_sublist _ _
  exact pairwise_lt_of_sorted_chain_ne _ (hs.sublist hd)
    (List.destutter_is_chain' _ _)

/-- C8: after `build_index`, every bucket of the inverted index is sorted
in strictly ascending position order (hence duplicate-free), and this is
preserved by every subsequent sequence of mutating operations, none of
which touches the index. -/
theorem index_sorted_invariant (catalog : List EmojiData)
    (ranks : List (String × Nat)) (ops : List Op) :
    (applyOps (builtData catalog ranks) ops).index = buildIndexMap catalog ∧
    ∀ p ∈ (applyOps (builtData catalog ranks) ops).index,
      List.Pairwise (· < ·) p.2 := by
  have hidx : (applyOps (builtData catalog ranks) ops).index =
      buildIndexMap catalog :=
    applyOps_index ops (builtData catalog ranks)
  refine ⟨hidx, ?_⟩
  rw [hidx]
  intro p hp
  obtain ⟨k, _, rfl⟩ := List.mem_map.mp hp
  exact finalBucket_sorted catalog k

/-- Witness for C8: the index invariant instantiated at the one-item
catalog, one increment operation and the bucket of the key `smile`. -/
theorem index_sorted_invariant_witness :
    (applyOps (builtData [sampleItem] []) [Op.increment "😀" none]).index =
      buildIndexMap [sampleItem] ∧
    List.Pairwise (· < ·) (finalBucket [sampleItem] "smile") :=
  ⟨(index_sorted_invariant [sampleItem] [] [Op.increment "😀" none]).1,
   (index_sorted_invariant [sampleItem] [] [Op.increment "😀" none]).2
     ("smile", finalBucket [sampleItem] "smile") (by decide)⟩

theorem mem_orderEmojisByUsage (ranks : List (String × Nat))
    (emojis : List String) (n : Nat) (s : String)
    (h : s ∈ orderEmojisByUsage ranks emojis n) : s ∈ emojis := by
  unfold orderEmojisByUsage at h
  split at h
  · exact h
  · rcases List.mem_append.mp h with h1 | h2
    · have := (List.mem_filter.mp h1).2
      simpa using this
    · exact (List.mem_filter.mp h2).1

theorem orderEmojisByUsage_length_le (ranks : List (String × Nat))
    (emojis : List String) (n : Nat) (hnd : (ranks.map Prod.fst).Nodup) :
    (orderEmojisByUsage ranks emojis n).length ≤ emojis.length := by
  unfold orderEmojisByUsage
  split
  · exact le_refl _
  rw [List.length_append]
  set top := getTopEmojisFromRanks ranks n with htop
  have htopnd : top.Nodup := by
    rw [htop]
    unfold getTopEmojisFromRanks
    split
    · exact List.nodup_nil
    · have hperm : ((ranks.insertionSort rankGE).map Prod.fst).Perm
          (ranks.map Prod.fst) :=
        (List.perm_insertionSort rankGE ranks).map Prod.fst
      have hnd' : ((ranks.insertionSort rankGE).map Prod.fst).Nodup :=
        hperm.nodup_iff.mpr hnd
      exact ((List.take_sublist n (ranks.insertionSort rankGE)).map
        Prod.fst).nodup hnd'
  have hp1nd : (top.filter (fun t => emojis.contains t)).Nodup :=
    htopnd.filter _
  have hp1sub : top.filter (fun t => emojis.contains t) ⊆
      emojis.filter (fun e => top.contains e) := by
    intro x hx
    obtain ⟨hxt, hxc⟩ := List.mem_filter.mp hx
    exact List.mem_filter.mpr ⟨by simpa using hxc, by simpa using hxt⟩
  have hlen1 : (top.filter (fun t => emojis.contains t)).length ≤
      (emojis.filter (fun e => top.contains e)).length :=
    (hp1nd.subperm hp1sub).length_le
  have hsplit : (emojis.filter (fun e => top.contains e)).length +
      (emojis.filter (fun e => !top.contains e)).length = emojis.length := by
    have := (List.filter_append_perm (fun e => top.contains e) emojis).length_eq
    simpa [List.length_append] using this
  omega

theorem hmContains_hmInsert {α : Type} (m : List (String × α)) (k k' : String)
    (v : α) (h : hmContains (hmInsert m k v) k' = true) :
    k' = k ∨ hmContains m k' = true := by
  unfold hmInsert at h
  split at h
  · unfold hmContains at h ⊢
    rw [List.any_eq_true] at h
    obtain ⟨p, hp, hbeq⟩ := h
    obtain ⟨q, hq, rfl⟩ := List.mem_map.mp hp
    have hfst : (if q.1 == k then (q.1, v) else q).1 = q.1 := by
      split <;> rfl
    rw [hfst] at hbeq
    exact Or.inr (List.any_eq_true.mpr ⟨q, hq, hbeq⟩)
  · unfold hmContains at h ⊢
    rw [List.any_eq_true] at h
    obtain ⟨p, hp, hbeq⟩ := h
    rcases List.mem_append.mp hp with hp | hp
    · exact Or.inr (List.any_eq_true.mpr ⟨p, hp, hbeq⟩)
    · rw [List.mem_singleton.mp hp] at hbeq
      exact Or.inl (beq_iff_eq.mp hbeq).symm

theorem hmContains_buildKeywordsMap (catalog : List EmojiData) (k : String)
    (h : hmContains (buildKeywordsMap catalog) k = true) :
    ∃ e ∈ catalog, e.emoji = k := by
  have main : ∀ (cs : List EmojiData) (m : List (String × List String)),
      hmContains (cs.foldl (fun m e => hmInsert m e.emoji (buildKeywordList e))
        m) k = true →
      hmContains m k = true ∨ ∃ e ∈ cs, e.emoji = k := by
    intro cs
    induction cs with
    | nil => intro m h; exact Or.inl h
    | cons e cs ih =>
      intro m h
      rw [List.foldl_cons] at h
      rcases ih _ h with hm | ⟨e', he', he''⟩
      · rcases hmContains_hmInsert m e.emoji k _ hm with rfl | hm'
        · exact Or.inr ⟨e, List.mem_cons_self _ _, rfl⟩
        · exact Or.inl hm'
      · exact Or.inr ⟨e', List.mem_cons_of_mem _ he', he''⟩
  rcases main catalog [] h with hm | hex
  · exact absurd hm (by simp [hmContains])
  · exact hex

theorem searchList_bounded (d : EmojiManagerData) (fw : String) :
    (searchList d fw).length ≤ MAX_SEARCH_RESULTS ∧
    ∀ s ∈ searchList d fw, ∃ e ∈ d.emojis, e.emoji = s := by
  unfold searchList
  split
  · constructor
    · rw [List.length_map, List.length_take]
      exact min_le_left _ _
    · intro s hs
      obtain ⟨e, he, rfl⟩ := List.mem_map.mp hs
      exact ⟨e, List.mem_of_mem_take he, rfl⟩
  · cases hg : hmGet d.index fw with
    | none => simp
    | some idxs =>
      constructor
      · refine le_trans (List.length_filterMap_le _ _) ?_
        rw [List.length_take]
        exact min_le_left _ _
      · intro s hs
        obtain ⟨i, _, heq⟩ := List.mem_filterMap.mp hs
        obtain ⟨e, hgetE, rfl⟩ := Option.map_eq_some'.mp heq
        exact ⟨e, List.getElem?_mem hgetE, rfl⟩

/-- C1 (amended): `get_emojis(q, N)` returns at most `MAX_SEARCH_RESULTS`
items, and every returned string is the glyph of some catalog item; the
second argument `max_top_emojis` only controls usage re-ranking and does
not cap the result count. -/
theorem getEmojis_bounded (catalog : List EmojiData)
    (ranks : List (String × Nat)) (q : String) (n : Nat)
    (hnd : (ranks.map Prod.fst).Nodup) :
    (getEmojis (builtData catalog ranks) q n).length ≤ MAX_SEARCH_RESULTS ∧
    ∀ s ∈ getEmojis (builtData catalog ranks) q n,
      ∃ e ∈ catalog, e.emoji = s := by
  have hsl := searchList_bounded (builtData catalog ranks)
    (toLowerString (trimStr q))
  unfold getEmojis
  by_cases h1 :
      hmContains (builtData catalog ranks).keywords (trimStr q) = true
  · rw [if_pos h1]
    refine ⟨by simp [MAX_SEARCH_RESULTS], ?_⟩
    intro s hs
    rw [List.mem_singleton.mp hs]
    exact hmContains_buildKeywordsMap catalog _ h1
  · rw [if_neg h1]
    by_cases h2 : stripVariationSelector (trimStr q) ≠ trimStr q ∧
        hmContains (builtData catalog ranks).keywords
          (stripVariationSelector (trimStr q)) = true
    · rw [if_pos h2]
      refine ⟨by simp [MAX_SEARCH_RESULTS], ?_⟩
      intro s hs
      rw [List.mem_singleton.mp hs]
      exact hmContains_buildKeywordsMap catalog _ h2.2
    · rw [if_neg h2]
      by_cases hn0 : n = 0
      · rw [if_pos hn0]
        exact hsl
      · rw [if_neg hn0]
        constructor
        · exact le_trans (orderEmojisByUsage_length_le ranks _ n hnd) hsl.1
        · intro s hs
          exact hsl.2 s (mem_orderEmojisByUsage ranks _ n s hs)

/-- Witness for C1: the amended bound instantiated at a two-item catalog,
an empty query and `max_top_emojis = 1`. -/
theorem getEmojis_bounded_witness :
    (getEmojis (builtData [sampleItem, sampleItem2] [("😀", 2)]) "" 1).length ≤
      MAX_SEARCH_RESULTS ∧
    ∀ s ∈ getEmojis (builtData [sampleItem, sampleItem2] [("😀", 2)]) "" 1,
      ∃ e ∈ [sampleItem, sampleItem2], e.emoji = s :=
  getEmojis_bounded [sampleItem, sampleItem2] [("😀", 2)] "" 1 (by decide)

/-- Counterexample to C1 as stated: on a two-item catalog the short-query
fallback returns 2 items even though `max_top_emojis = 1`, so the result
count is not bounded by `min(N, MAX_SEARCH_RESULTS)`. -/
theorem getEmojis_result_cap_counterexample :
    ¬ ((getEmojis (builtData [sampleItem, sampleItem2] []) "" 1).length ≤
        min 1 MAX_SEARCH_RESULTS) := by decide

/-- C6 (amended): if the trimmed input is a key of the keyword table, the
result is exactly that key, independently of `MIN_SEARCH_LENGTH`; if the
trimmed input is not a key, contains U+FE0F (equivalently, stripping
changes it) and the stripped variant is a key, the result is exactly the
stripped variant. -/
theorem getEmojis_glyph_bypass (d : EmojiManagerData) (q : String) (n : Nat) :
    (hmContains d.keywords (trimStr q) = true →
      getEmojis d q n = [trimStr q]) ∧
    (hmContains d.keywords (trimStr q) = false →
      stripVariationSelector (trimStr q) ≠ trimStr q →
      hmContains d.keywords (stripVariationSelector (trimStr q)) = true →
      getEmojis d q n = [stripVariationSelector (trimStr q)]) := by
  constructor
  · intro h
    unfold getEmojis
    rw [if_pos h]
  · intro h hne hs
    unfold getEmojis
    rw [if_neg (by simp [h]), if_pos ⟨hne, hs⟩]

/-- Witness for C6: the glyph bypass instantiated at a built one-item
catalog state and the glyph itself as query. -/
theorem getEmojis_glyph_bypass_witness :
    hmContains (builtData [sampleItem] []).keywords (trimStr "😀") = true ∧
    getEmojis (builtData [sampleItem] []) "😀" 0 = [trimStr "😀"] :=
  ⟨by decide, (getEmojis_glyph_bypass (builtData [sampleItem] []) "😀" 0).1
    (by decide)⟩

/-- Counterexample to C6 as stated: when the catalog contains both a glyph
with U+FE0F and its stripped variant, searching for the U+FE0F glyph
returns the original glyph, not the stripped one, although the trimmed
input contains U+FE0F and the stripped variant is a catalog glyph. -/
theorem getEmojis_vs16_counterexample :
    stripVariationSelector (trimStr "a\uFE0F") ≠ trimStr "a\uFE0F" ∧
    hmContains (builtData [vsItem, plainItem] []).keywords
      (stripVariationSelector (trimStr "a\uFE0F")) = true ∧
    getEmojis (builtData [vsItem, plainItem] []) "a\uFE0F" 10 = [trimStr "a\uFE0F"] ∧
    getEmojis (builtData [vsItem, plainItem] []) "a\uFE0F" 10 ≠
      [stripVariationSelector (trimStr "a\uFE0F")] := by decide

/-- C2 (amended): `load_ranks` starts from an empty ledger when the file
is missing or when its content fails to parse, but when the file exists
and reading it fails the I/O error propagates and `initialize` fails. -/
theorem loadRanks_spec (parse : String → Option (List (String × Nat)))
    (s : String) (hs : parse s = none) :
    loadRanks parse RanksFile.missing = Except.ok [] ∧
    loadRanks parse (RanksFile.content s) = Except.ok [] ∧
    loadRanks parse RanksFile.readFailure = Except.error () ∧
    ∀ catalog, initializeManager (Except.ok catalog) parse RanksFile.readFailure =
      Except.error () := by
  refine ⟨rfl, ?_, rfl, fun catalog => rfl⟩
  simp [loadRanks, hs]

/-- Witness for C2: the amended behaviour at a parser rejecting
everything. -/
theorem loadRanks_spec_witness :
    loadRanks (fun _ => none) RanksFile.missing = Except.ok [] ∧
    loadRanks (fun _ => none) (RanksFile.content "not json") =
      Except.ok [] :=
  ⟨(loadRanks_spec (fun _ => none) "not json" rfl).1,
   (loadRanks_spec (fun _ => none) "not json" rfl).2.1⟩

/-- Counterexample to C2 as stated: an existing but unreadable ledger file
does not yield an empty ledger — `load_ranks` returns the error and
`initialize` fails. -/
theorem loadRanks_readFailure_counterexample :
    loadRanks (fun _ => none) RanksFile.readFailure ≠ Except.ok [] ∧
    initializeManager (Except.ok []) (fun _ => none) RanksFile.readFailure =
      Except.error () :=
  ⟨fun h => Except.noConfusion h, rfl⟩

/-- C7: when `reset_ranks` returns successfully, the in-memory ledger is
empty and the durable ledger document has been overwritten with the
serialized empty map (`\x7b\x7d`) by the synchronous write inside
`reset_ranks` itself; the debounce scheduler state (dirty flag,
last-write timestamp, worker gate) is untouched. -/
theorem resetRanks_spec (writeOk : Bool) (st st' : PersistState)
    (h : resetRanks writeOk st = Except.ok st') :
    st'.data.ranks = [] ∧
    st'.ledgerFile = some (serializeRanks []) ∧
    serializeRanks [] = "\x7b\x7d" ∧
    st'.pendingWrites = st.pendingWrites ∧
    st'.lastWriteTime = st.lastWriteTime ∧
    st'.writeWorkerActive = st.writeWorkerActive ∧
    st'.data.emojis = st.data.emojis ∧
    st'.data.index = st.data.index := by
  unfold resetRanks at h
  split at h
  · cases h
    exact ⟨rfl, rfl, rfl, rfl, rfl, rfl, rfl, rfl⟩
  · cases h

/-- Witness for C7: the reset theorem instantiated at
`samplePersistState`. -/
theorem resetRanks_spec_witness :
    resetSample.data.ranks = [] ∧
    resetSample.ledgerFile = some (serializeRanks []) ∧
    serializeRanks [] = "\x7b\x7d" ∧
    resetSample.pendingWrites = samplePersistState.pendingWrites ∧
    resetSample.lastWriteTime = samplePersistState.lastWriteTime ∧
    resetSample.writeWorkerActive = samplePersistState.writeWorkerActive ∧
    resetSample.data.emojis = samplePersistState.data.emojis ∧
    resetSample.data.index = samplePersistState.data.index :=
  resetRanks_spec true samplePersistState resetSample rfl

/-- C9: in every reachable write-back state at most one worker thread is
live (none when the gate is released), and a mutation arriving while the
gate is held only sets the dirty flag and the timestamp — it never spawns
a second worker. -/
theorem writeWorker_single_active :
    (∀ s : WbState, WbReachable s →
      s.workers ≤ 1 ∧ (s.writeWorkerActive = false → s.workers = 0)) ∧
    (∀ (s t : WbState) (u : Nat), WbStep s (.mutation u) t →
      s.writeWorkerActive = true →
      t.workers = s.workers ∧ t.writeWorkerActive = true ∧
      t.pendingWrites = true ∧ t.lastWriteTime = u) := by
  constructor
  · intro s h
    induction h with
    | init => exact ⟨Nat.zero_le 1, fun _ => rfl⟩
    | step hr hs ih =>
      rename_i s l t
      cases hs with
      | mutationSpawn u hact =>
        refine ⟨?_, fun hfalse => absurd hfalse (by simp)⟩
        show s.workers + 1 ≤ 1
        have h0 : s.workers = 0 := ih.2 hact
        omega
      | mutationNoSpawn u hact =>
        refine ⟨ih.1, fun hfalse => ?_⟩
        have hfalse' : s.writeWorkerActive = false := hfalse
        rw [hact] at hfalse'
        cases hfalse'
      | workerClear h0 => exact ih
      | workerExit h0 =>
        have h1 := ih.1
        constructor
        · show s.workers - 1 ≤ 1
          omega
        · intro _
          show s.workers - 1 = 0
          omega
      | workerSleep h0 => exact ih
  · intro s t u hstep hact
    cases hstep with
    | mutationSpawn =>
      rename_i hflag
      rw [hflag] at hact
      cases hact
    | mutationNoSpawn =>
      rename_i hflag
      exact ⟨rfl, hflag, rfl, rfl⟩

/-- Witness for C9: the single-writer invariant at the concrete reachable
post-spawn state, and a second mutation there leaving the worker count
unchanged. -/
theorem writeWorker_single_active_witness :
    wbAfterSpawn.workers ≤ 1 ∧
    ({ wbAfterSpawn with
        pendingWrites := true
        lastWriteTime := 9 } : WbState).workers = wbAfterSpawn.workers :=
  ⟨(writeWorker_single_active.1 wbAfterSpawn
      (WbReachable.step WbReachable.init
        (WbStep.mutationSpawn _ 5 rfl))).1,
   (writeWorker_single_active.2 wbAfterSpawn _ 9
      (WbStep.mutationNoSpawn wbAfterSpawn 9 rfl) rfl).1⟩

theorem hmGet_map_update_self (l : List (String × Nat)) (emoji : String)
    (g : Nat → Nat) :
    hmGet (l.map (fun p => if p.1 == emoji then (p.1, g p.2) else p)) emoji =
      (hmGet l emoji).map g := by
  induction l with
  | nil => rfl
  | cons p ps ih =>
    by_cases hp : (p.1 == emoji) = true
    · simp [hmGet, List.find?, hp]
    · have hp' : (p.1 == emoji) = false := by
        revert hp; cases (p.1 == emoji) <;> simp
      simpa [hmGet, List.find?, hp'] using ih

theorem hmGet_map_update_ne (l : List (String × Nat)) (emoji k : String)
    (g : Nat → Nat) (hk : k ≠ emoji) :
    hmGet (l.map (fun p => if p.1 == emoji then (p.1, g p.2) else p)) k =
      hmGet l k := by
  induction l with
  | nil => rfl
  | cons p ps ih =>
    by_cases hpk : (p.1 == k) = true
    · have hpe : (p.1 == emoji) = false := by
        rw [beq_eq_false_iff_ne]
        rw [beq_iff_eq.mp hpk]
        exact hk
      simp [hmGet, List.find?, hpk, hpe]
    · have hpk' : (p.1 == k) = false := by
        revert hpk; cases (p.1 == k) <;> simp
      by_cases hpe : (p.1 == emoji) = true
      · simpa [hmGet, List.find?, hpk', hpe] using ih
      · have hpe' : (p.1 == emoji) = false := by
          revert hpe; cases (p.1 == emoji) <;> simp
        simpa [hmGet, List.find?, hpk', hpe'] using ih

theorem hmGet_append_single_ne (l : List (String × Nat)) (emoji k : String)
    (v : Nat) (hk : k ≠ emoji) :
    hmGet (l ++ [(emoji, v)]) k = hmGet l k := by
  unfold hmGet
  rw [List.find?_append]
  have hne : (emoji == k) = false := beq_eq_false_iff_ne.mpr (Ne.symm hk)
  have : List.find? (fun p => p.1 == k) [(emoji, v)] = none := by
    simp [List.find?, hne]
  rw [this, Option.or_none]

theorem hmGet_some_of_any (l : List (String × Nat)) (k : String)
    (h : l.any (fun p => p.1 == k) = true) : ∃ c, hmGet l k = some c := by
  induction l with
  | nil => cases h
  | cons p ps ih =>
    by_cases hp : (p.1 == k) = true
    · exact ⟨p.2, by simp [hmGet, List.find?, hp]⟩
    · have hp' : (p.1 == k) = false := by
        revert hp; cases (p.1 == k) <;> simp
      rw [List.any_cons, hp', Bool.false_or] at h
      obtain ⟨c, hc⟩ := ih h
      exact ⟨c, by simpa [hmGet, List.find?, hp'] using hc⟩

theorem hmGet_none_of_not_any (l : List (String × Nat)) (k : String)
    (h : l.any (fun p => p.1 == k) = false) : hmGet l k = none := by
  unfold hmGet
  have hfind : List.find? (fun p => p.1 == k) l = none := by
    rw [List.find?_eq_none]
    intro p hp hc
    have hany := (@List.any_eq_true _ (fun q => q.1 == k) l).mpr ⟨p, hp, hc⟩
    rw [h] at hany
    simp at hany
  rw [hfind, Option.map_none']

/-- C10: `increment_usage` performs unchecked 32-bit addition — the
stored counter becomes `(previous + amount) mod 2^32` (previous 0 when
the id is new), other ids are untouched, and at `previous = 2^32 - 1`
with the default amount the counter wraps to 0 and strictly decreases, so
counters are not monotone for such inputs. -/
theorem incrementUsage_wraps (ranks : List (String × Nat)) (emoji : String)
    (amount : Option Nat) :
    hmGet (incrementUsage ranks emoji amount) emoji =
      some ((((hmGet ranks emoji).getD 0) + amount.getD 1) % 2 ^ 32) ∧
    (∀ k, k ≠ emoji →
      hmGet (incrementUsage ranks emoji amount) k = hmGet ranks k) ∧
    incrementUsage [("x", 2 ^ 32 - 1)] "x" none = [("x", 0)] ∧
    (hmGet (incrementUsage [("x", 2 ^ 32 - 1)] "x" none) "x").getD 0 <
      (hmGet [("x", 2 ^ 32 - 1)] "x").getD 0 := by
  refine ⟨?_, ?_, by decide, by decide⟩
  · unfold incrementUsage
    split
    · rename_i hany
      rw [hmGet_map_update_self ranks emoji
        (fun c => (c + amount.getD 1) % 2 ^ 32)]
      obtain ⟨c, hc⟩ := hmGet_some_of_any ranks emoji hany
      rw [hc]
      rfl
    · rename_i hany
      have hany' : ranks.any (fun p => p.1 == emoji) = false := by
        revert hany; cases ranks.any (fun p => p.1 == emoji) <;> simp
      rw [hmGet_none_of_not_any ranks emoji hany']
      unfold hmGet
      have hfind : List.find? (fun p => p.1 == emoji) ranks = none := by
        rw [List.find?_eq_none]
        intro p hp hc
        have hx := (@List.any_eq_true _ (fun q => q.1 == emoji) ranks).mpr
          ⟨p, hp, hc⟩
        rw [hany'] at hx
        simp at hx
      rw [List.find?_append, hfind, Option.none_or]
      simp [List.find?]
  · intro k hk
    unfold incrementUsage
    split
    · exact hmGet_map_update_ne ranks emoji k
        (fun c => (c + amount.getD 1) % 2 ^ 32) hk
    · exact hmGet_append_single_ne ranks emoji k
        ((0 + amount.getD 1) % 2 ^ 32) hk

/-- Witness for C10: the increment formula applied at a saturated counter
and an unrelated key. -/
theorem incrementUsage_wraps_witness :
    hmGet (incrementUsage [("x", 2 ^ 32 - 1)] "x" none) "x" =
      some ((((hmGet [("x", 2 ^ 32 - 1)] "x").getD 0) +
        (none : Option Nat).getD 1) % 2 ^ 32) ∧
    hmGet (incrementUsage [("x", 2 ^ 32 - 1)] "x" none) "y" =
      hmGet [("x", 2 ^ 32 - 1)] "y" :=
  ⟨(incrementUsage_wraps [("x", 2 ^ 32 - 1)] "x" none).1,
   (incrementUsage_wraps [("x", 2 ^ 32 - 1)] "x" none).2.1 "y" (by decide)⟩

end Emojiq
